import Mathlib

/-!
Verification development for the AI-Gen-Assistant pipeline
(`ai_ops_assistant`: PlannerAgent, ExecutorAgent, VerifierAgent).

The Python source is shallowly embedded: Python values flowing through the
pipeline are modelled by the inductive type `Json`; Python dicts are
insertion-ordered association lists (`Dict`); Python truthiness is `truthy`;
exceptions are modelled with explicit error results (`StepResult.exn`,
`Except String _`).  External collaborators (the HTTP-backed tool methods and
the LLM completion call) are parameters: an environment
`env : String → String → Json → CallResult` gives the behaviour of the bound
tool method for a (tool, action, params) triple, and the outcome of
`llm.generate_json` is passed in as an `Except String Json` (`.error` models
the call raising, which includes unparsable responses, since
`LLMClient.generate_json` raises `ValueError` on JSON it cannot parse).

String rendering of Python values inside error-message text (`pyStr`) is
faithful for the scalar values that actually reach those messages; for
container values (never inspected by any claim) it is abbreviated.  Error
message text omits the quote characters the source puts around names.
-/

/-- JSON-like Python values (the data the pipeline manipulates). -/
inductive Json where
  | null : Json
  | bool : Bool → Json
  | num : Int → Json
  | str : String → Json
  | arr : List Json → Json
  | obj : List (String × Json) → Json

/-- Python dicts with string keys: insertion-ordered association lists. -/
abbrev Dict := List (String × Json)

/-- First-match association lookup, i.e. Python `d[k]` / `d.get(k)`. -/
def Dict.lookup? : Dict → String → Option Json
  | [], _ => none
  | (k, v) :: rest, key => if k == key then some v else Dict.lookup? rest key

/-- Python `d.get(k)` (default `None`). -/
def dget (m : Dict) (k : String) : Json :=
  (m.lookup? k).getD .null

/-- Python `k in d` for a dict `d`. -/
def hasKey (m : Dict) (k : String) : Bool :=
  m.any (fun p => p.1 == k)

/-- Python `d[k] = v`: overwrite in place if the key exists, else append
(dicts preserve insertion order; overwriting keeps the original position). -/
def setKey (m : Dict) (k : String) (v : Json) : Dict :=
  if hasKey m k then m.map (fun p => if p.1 == k then (k, v) else p)
  else m ++ [(k, v)]

/-- Python truthiness of a value (`bool(v)`). -/
def truthy : Json → Bool
  | .null => false
  | .bool b => b
  | .num n => n != 0
  | .str s => s ≠ ""
  | .arr [] => false
  | .arr (_ :: _) => true
  | .obj [] => false
  | .obj (_ :: _) => true

/-- Python `v == s` for a string literal `s` (equal only to the same string;
no cross-type equality arises for the values compared in this code). -/
def jsonIsStr (v : Json) (s : String) : Bool :=
  match v with
  | .str t => t == s
  | _ => false

/-- Decimal digit list of a natural number (most significant first),
written with explicit fuel so that it reduces definitionally. -/
def decListGo : Nat → Nat → List Char
  | 0, _ => []
  | fuel + 1, n =>
    if n < 10 then [Nat.digitChar n]
    else decListGo fuel (n / 10) ++ [Nat.digitChar (n % 10)]

/-- Decimal digit list of `n`. -/
def decList (n : Nat) : List Char :=
  decListGo (n + 1) n

/-- Decimal string of a natural number, i.e. Python `str(n)` / `f-string`
interpolation of a nonnegative int. -/
def natDecimal (n : Nat) : String :=
  String.mk (decList n)

/-- Python `str(i)` for an int. -/
def intDecimal (i : Int) : String :=
  match i with
  | .ofNat n => natDecimal n
  | .negSucc n => "-" ++ natDecimal (n + 1)

/-- Python `str(v)` as interpolated into f-strings; abbreviated for
containers (whose rendering no claim inspects). -/
def pyStr : Json → String
  | .null => "None"
  | .bool true => "True"
  | .bool false => "False"
  | .num i => intDecimal i
  | .str s => s
  | .arr _ => "[...]"
  | .obj _ => "..."

/-- Boolean prefix test on character lists. -/
def isPrefixList : List Char → List Char → Bool
  | [], _ => true
  | _ :: _, [] => false
  | a :: as, b :: bs => a == b && isPrefixList as bs

/-- Boolean contiguous-sublist test on character lists. -/
def isInfixList : List Char → List Char → Bool
  | needle, [] => isPrefixList needle []
  | needle, h :: t => isPrefixList needle (h :: t) || isInfixList needle t

/-- Python `needle in haystack` for strings: contiguous substring test. -/
def strContains (hay needle : String) : Bool :=
  isInfixList needle.data hay.data

/-! ## ExecutorAgent (`agents/executor.py`)

The registry `action_map` built in `ExecutorAgent.__init__` maps the tool
names `github` and `weather` to their bound actions.  The behaviour of each
bound method is abstracted into the environment `env`; `CallResult`
distinguishes a normal return, a `TypeError` raised by the call (bad named
arguments, caught by `_execute_step`), and any other exception (caught at
plan level). -/

/-- The `action_map` registry from `ExecutorAgent.__init__`. -/
def action_map : List (String × List String) :=
  [("github", ["search_repos", "get_repo_info"]),
   ("weather", ["get_weather", "get_forecast"])]

/-- Association lookup in the registry. -/
def lookupActions : List (String × List String) → String → Option (List String)
  | [], _ => none
  | (k, v) :: rest, key => if k == key then some v else lookupActions rest key

/-- Outcome of invoking a bound tool method with expanded named arguments. -/
inductive CallResult where
  | value : Json → CallResult
  | typeError : String → CallResult
  | raise : String → CallResult

/-- Abstract tool environment: behaviour of `method(**params)` for the
bound method of (tool, action). -/
abbrev Env := String → String → Json → CallResult

/-- Result of `ExecutorAgent._execute_step`: a returned value, or an
exception propagating out of the method (to be caught by `execute_plan`). -/
inductive StepResult where
  | ok : Json → StepResult
  | exn : String → StepResult

/-- `ExecutorAgent._execute_step`: validate tool and action against the
registry (raising `ValueError` on an unknown one, modelled as `.exn`),
invoke the bound method, and convert a `TypeError` from the invocation into
an error-record return value. -/
def execute_step (env : Env) (step : Dict) : StepResult :=
  let toolJ := dget step "tool"
  let actJ := dget step "action"
  let params := (step.lookup? "params").getD (.obj [])
  match toolJ with
  | .str t =>
    match lookupActions action_map t with
    | none => .exn ("Unknown tool: " ++ t)
    | some actions =>
      match actJ with
      | .str a =>
        if actions.contains a then
          match env t a params with
          | .value v => .ok v
          | .typeError m =>
            .ok (.obj [("error", .bool true),
                       ("message", .str ("Invalid parameters: " ++ m))])
          | .raise m => .exn m
        else .exn ("Unknown action " ++ a ++ " for tool " ++ t)
      | _ => .exn ("Unknown action " ++ pyStr actJ ++ " for tool " ++ t)
  | _ => .exn ("Unknown tool: " ++ pyStr toolJ)

/-- The execution report built by `execute_plan`
(`{steps_executed, steps_failed, results}`). -/
structure Report where
  steps_executed : Nat
  steps_failed : Nat
  results : Dict

/-- Outcome of the embedded-failure check on a returned value
(`execute_plan` lines 82–87): the step also counts as failed, it does not,
or the check itself raises (`result[0].get` on a non-dict first element). -/
inductive ClassifyOut where
  | failedInc : ClassifyOut
  | noInc : ClassifyOut
  | raised : String → ClassifyOut

/-- The embedded-failure check of `execute_plan` on a successfully returned
value: a dict with a truthy `error` field, or a non-empty list whose first
element has a truthy `error` field, marks the step failed. -/
def classify : Json → ClassifyOut
  | .obj fs => if truthy (dget fs "error") then .failedInc else .noInc
  | .arr [] => .noInc
  | .arr (x :: _) =>
    match x with
    | .obj fs => if truthy (dget fs "error") then .failedInc else .noInc
    | _ => .raised "AttributeError"
  | _ => .noInc

/-- The synthetic failure record stored under `error_step_<i>`. -/
def errRecord (m : String) (step : Dict) : Json :=
  .obj [("error", .bool true), ("message", .str m), ("step", .obj step)]

/-- Processing of one plan step inside the loop of
`ExecutorAgent.execute_plan` (index `i`, accumulated report `r`). -/
def execStepInPlan (env : Env) (r : Report) (i : Nat) (step : Dict) : Report :=
  match execute_step env step with
  | .exn m =>
    { r with
      results := setKey r.results ("error_step_" ++ natDecimal i) (errRecord m step),
      steps_failed := r.steps_failed + 1 }
  | .ok v =>
    let key0 := pyStr (dget step "tool") ++ "_" ++ pyStr (dget step "action")
    let key := if hasKey r.results key0 then key0 ++ "_" ++ natDecimal i else key0
    let r1 := { r with
                results := setKey r.results key v,
                steps_executed := r.steps_executed + 1 }
    match classify v with
    | .failedInc => { r1 with steps_failed := r1.steps_failed + 1 }
    | .noInc => r1
    | .raised m =>
      { r1 with
        results := setKey r1.results ("error_step_" ++ natDecimal i) (errRecord m step),
        steps_failed := r1.steps_failed + 1 }

/-- The enumerated loop of `execute_plan`. -/
def execPlanAux (env : Env) : Nat → List Dict → Report → Report
  | _, [], r => r
  | i, s :: rest, r => execPlanAux env (i + 1) rest (execStepInPlan env r i s)

/-- `ExecutorAgent.execute_plan` on a plan whose `steps` field is the given
sequence of step dicts (the Plan data model). -/
def execute_plan (env : Env) (steps : List Dict) : Report :=
  execPlanAux env 0 steps ⟨0, 0, []⟩

/-! ## WeatherTool (`tools/weather_tool.py`) -/

/-- `WeatherTool.get_weather_forecast`: unimplemented stub returning a dict
whose `error` field holds the string `Forecast not implemented`. -/
def get_weather_forecast (city : String) : Json :=
  .obj [("city", .str city), ("forecast", .arr []),
        ("error", .str "Forecast not implemented")]

/-! ## VerifierAgent (`agents/verifier.py`) -/

/-- The validation dict built by `VerifierAgent._basic_validation`
(`{status, missing_fields, errors}`). -/
structure Verdict where
  status : String
  missing_fields : List String
  errors : List String

/-- One iteration of the error-indicator loop of `_basic_validation`
(lines 89–98): a dict value with a truthy `error` field, or a non-empty
list value whose first element is a dict with a truthy `error` field,
downgrades `success` to `partial` and appends a message. -/
def basicCheckEntry (v : Verdict) (kv : String × Json) : Verdict :=
  match kv.2 with
  | .obj fs =>
    if truthy (dget fs "error") then
      { v with
        status := if v.status == "success" then "partial" else v.status,
        errors := v.errors ++
          [kv.1 ++ ": " ++ pyStr ((Dict.lookup? fs "message").getD (.str "Unknown error"))] }
    else v
  | .arr (x :: _) =>
    match x with
    | .obj fs =>
      if truthy (dget fs "error") then
        { v with
          status := if v.status == "success" then "partial" else v.status,
          errors := v.errors ++
            [kv.1 ++ ": " ++ pyStr ((Dict.lookup? fs "description").getD (.str "Unknown error"))] }
      else v
    | _ => v
  | _ => v

/-- `VerifierAgent._basic_validation` on an execution report. -/
def basic_validation (r : Report) : Verdict :=
  let v : Verdict := ⟨"success", [], []⟩
  let v :=
    if r.steps_failed > 0 then
      { v with status := "partial",
               errors := v.errors ++ [natDecimal r.steps_failed ++ " step(s) failed"] }
    else v
  let v :=
    if r.steps_executed == 0 then
      { v with status := "failed",
               errors := v.errors ++ ["No steps executed successfully"] }
    else v
  r.results.foldl basicCheckEntry v

/-- One iteration of the category-grouping loop of
`VerifierAgent._format_results` (lines 130–138), accumulating the
`github_repos` list and the `weather_data` dict. -/
def formatGroupEntry (acc : List Json × Dict) (kv : String × Json) : List Json × Dict :=
  if strContains kv.1 "github" then
    match kv.2 with
    | .arr xs => (acc.1 ++ xs, acc.2)
    | .obj _ => (acc.1 ++ [kv.2], acc.2)
    | _ => acc
  else if strContains kv.1 "weather" then
    match kv.2 with
    | .obj fs => (acc.1, fs)
    | _ => acc
  else acc

/-- `VerifierAgent._format_results`: the deterministic formatter producing
the FinalResult dict from the raw report and a validation verdict. -/
def format_results (r : Report) (v : Verdict) : Json :=
  let grouped := r.results.foldl formatGroupEntry ([], [])
  let resultsObj : Dict :=
    (match grouped.1 with
     | [] => []
     | xs => [("github_repos", .arr xs)]) ++
    (match grouped.2 with
     | [] => []
     | fs => [("weather", .obj fs)])
  .obj [("status", .str v.status),
        ("results", .obj resultsObj),
        ("missing_fields", .arr (v.missing_fields.map .str)),
        ("errors", .arr (v.errors.map .str))]

/-- Python `k not in v` for an arbitrary value `v` (dict: key test; list:
membership via equality; string: substring test; otherwise `TypeError`). -/
def pyNotIn (k : String) : Json → Except String Bool
  | .obj fs => .ok (!hasKey fs k)
  | .arr xs => .ok (!xs.any (fun x => jsonIsStr x k))
  | .str s => .ok (!strContains s k)
  | _ => .error "TypeError: argument not iterable"

/-- Python `v[k] = w` for an arbitrary value `v` (`TypeError` unless a dict). -/
def pySetItem (v : Json) (k : String) (w : Json) : Except String Json :=
  match v with
  | .obj fs => .ok (.obj (setKey fs k w))
  | _ => .error "TypeError: item assignment unsupported"

/-- `VerifierAgent._llm_verification`: the outcome of `generate_json` is the
argument; on success the required `status` and `results` fields are
backfilled; any exception propagates (is re-raised). -/
def llm_verification (llm : Except String Json) : Except String Json := do
  let v ← llm
  let b ← pyNotIn "status" v
  let v ← if b then pySetItem v "status" (.str "partial") else pure v
  let b2 ← pyNotIn "results" v
  let v ← if b2 then pySetItem v "results" (.obj []) else pure v
  pure v

/-- `VerifierAgent.verify_and_format`: deterministic formatting when basic
validation is `success`; otherwise the LLM verification path, falling back
to the deterministic formatter on the basic verdict if that path raises. -/
def verify_and_format (r : Report) (llm : Except String Json) : Json :=
  let basic := basic_validation r
  if basic.status == "success" then format_results r basic
  else
    match llm_verification llm with
    | .ok v => v
    | .error _ => format_results r basic

/-- Field projection used to state claims about a FinalResult value. -/
def getField (j : Json) (k : String) : Json :=
  match j with
  | .obj fs => dget fs k
  | _ => .null

/-! ## PlannerAgent (`agents/planner.py`) -/

/-- `PlannerAgent._validate_plan`: structural validation of a plan value. -/
def validate_plan (plan : Json) : Bool :=
  match plan with
  | .obj fs =>
    match Dict.lookup? fs "steps" with
    | some (.arr steps) =>
      steps.all (fun s =>
        match s with
        | .obj sf =>
          hasKey sf "tool" && hasKey sf "action" && hasKey sf "params" &&
          (jsonIsStr (dget sf "tool") "github" || jsonIsStr (dget sf "tool") "weather")
        | _ => false)
    | some _ => false
    | none => false
  | _ => false

/-- `PlannerAgent.refine_plan`: ask the LLM for a corrected plan
(`llm` is the outcome of `generate_json` on the refinement prompt); return
it only if it passes structural validation, otherwise (also when the LLM
call raises) return the original plan. -/
def refine_plan (plan : Json) (llm : Except String Json) : Json :=
  match llm with
  | .error _ => plan
  | .ok refined => if validate_plan refined then refined else plan

/-! ## String infrastructure: decimal rendering is injective, and the
result keys the executor builds are pairwise distinct. -/

/-- The fuel argument of `decListGo` is irrelevant once large enough. -/
theorem decListGo_fuel (n : Nat) : ∀ f1 f2, n < f1 → n < f2 →
    decListGo f1 n = decListGo f2 n := by
  induction n using Nat.strong_induction_on with
  | _ n ih =>
    intro f1 f2 h1 h2
    match f1, f2 with
    | a + 1, b + 1 =>
      simp only [decListGo]
      by_cases h : n < 10
      · simp [h]
      · have hd : n / 10 < n := Nat.div_lt_self (by omega) (by omega)
        simp only [h, if_false]
        rw [ih (n / 10) hd a b (by omega) (by omega)]

/-- Recurrence for `decList`. -/
theorem decList_eq (n : Nat) : decList n =
    if n < 10 then [Nat.digitChar n]
    else decList (n / 10) ++ [Nat.digitChar (n % 10)] := by
  by_cases h : n < 10
  · simp only [decList, decListGo, h, if_true]
  · have hd : n / 10 < n := Nat.div_lt_self (by omega) (by omega)
    rw [if_neg h]
    show decListGo (n + 1) n = _
    rw [decListGo, if_neg h]
    congr 1
    exact decListGo_fuel (n / 10) n (n / 10 + 1) (by omega) (by omega)

theorem decList_ne_nil (n : Nat) : decList n ≠ [] := by
  rw [decList_eq]
  by_cases h : n < 10 <;> simp [h]

theorem digitChar_toNat (d : Nat) (h : d < 10) : (Nat.digitChar d).toNat = 48 + d := by
  interval_cases d <;> decide

theorem digitChar_inj (a b : Nat) (ha : a < 10) (hb : b < 10)
    (h : Nat.digitChar a = Nat.digitChar b) : a = b := by
  have := congrArg Char.toNat h
  rw [digitChar_toNat a ha, digitChar_toNat b hb] at this
  omega

theorem decList_inj : ∀ m n, decList m = decList n → m = n := by
  intro m
  induction m using Nat.strong_induction_on with
  | _ m ih =>
    intro n h
    rw [decList_eq m, decList_eq n] at h
    by_cases h1 : m < 10 <;> by_cases h2 : n < 10
    · simp only [h1, h2, if_true] at h
      simp only [List.cons.injEq, and_true] at h
      exact digitChar_inj m n h1 h2 h
    · exfalso
      simp only [h1, h2, if_true, if_false] at h
      have hpos : 0 < (decList (n / 10)).length :=
        List.length_pos.mpr (decList_ne_nil (n / 10))
      have hlen := congrArg List.length h
      simp only [List.length_append, List.length_cons, List.length_nil] at hlen
      omega
    · exfalso
      simp only [h1, h2, if_true, if_false] at h
      have hpos : 0 < (decList (m / 10)).length :=
        List.length_pos.mpr (decList_ne_nil (m / 10))
      have hlen := congrArg List.length h
      simp only [List.length_append, List.length_cons, List.length_nil] at hlen
      omega
    · simp only [h1, h2, if_false] at h
      obtain ⟨hpre, hsuf⟩ := List.append_inj' h (by simp)
      have e1 : m / 10 = n / 10 :=
        ih (m / 10) (Nat.div_lt_self (by omega) (by omega)) (n / 10) hpre
      have e2 : m % 10 = n % 10 :=
        digitChar_inj _ _ (Nat.mod_lt _ (by omega)) (Nat.mod_lt _ (by omega))
          (by simpa using hsuf)
      omega

theorem string_ext {s t : String} (h : s.data = t.data) : s = t := by
  cases s; cases t; exact congrArg String.mk h

theorem natDecimal_data (n : Nat) : (natDecimal n).data = decList n := rfl

theorem natDecimal_inj {m n : Nat} (h : natDecimal m = natDecimal n) : m = n :=
  decList_inj m n (by simpa [natDecimal_data] using congrArg String.data h)

theorem natDecimal_ne_nil (n : Nat) : (natDecimal n).data ≠ [] := decList_ne_nil n

/-- If two strings differ at character position `n` inside their literal
prefixes, no pair of suffixes can make them equal. -/
theorem strApp_ne (p q x y : String) (n : Nat)
    (h1 : n < p.data.length) (h2 : n < q.data.length)
    (hne : p.data[n]? ≠ q.data[n]?) : p ++ x ≠ q ++ y := by
  intro h
  apply hne
  have hd := congrArg String.data h
  rw [String.data_append, String.data_append] at hd
  have e1 : (p.data ++ x.data)[n]? = p.data[n]? := by
    rw [List.getElem?_append, if_pos h1]
  have e2 : (q.data ++ y.data)[n]? = q.data[n]? := by
    rw [List.getElem?_append, if_pos h2]
  rw [← e1, hd, e2]

/-- A string with a suffix appended differs from a plain string they
disagree with at a position inside the prefix. -/
theorem strApp_ne_right (p x q : String) (n : Nat)
    (h1 : n < p.data.length) (hne : p.data[n]? ≠ q.data[n]?) : p ++ x ≠ q := by
  intro h
  apply hne
  have hd := congrArg String.data h
  rw [String.data_append] at hd
  have e1 : (p.data ++ x.data)[n]? = p.data[n]? := by
    rw [List.getElem?_append, if_pos h1]
  rw [← e1, hd]

/-- Appending to a fixed prefix is injective. -/
theorem strApp_cancel {p x y : String} (h : p ++ x = p ++ y) : x = y := by
  have hd := congrArg String.data h
  rw [String.data_append, String.data_append] at hd
  exact string_ext (List.append_cancel_left hd)

/-! ## Result-key shapes

A key the executor ever writes is `shortKey t a`, `longKey t a k` (suffixed
on collision) for a registry pair `(t, a)`, or `error_step_<k>`. -/

/-- The (tool, action) pairs of the registry. -/
def regPairs : List (String × String) :=
  [("github", "search_repos"), ("github", "get_repo_info"),
   ("weather", "get_weather"), ("weather", "get_forecast")]

/-- The uncollided result key `<tool>_<action>`. -/
def shortKey (t a : String) : String := t ++ "_" ++ a

/-- `<tool>_<action>_` followed by an arbitrary suffix. -/
def longKeyS (t a y : String) : String := t ++ "_" ++ a ++ "_" ++ y

/-- The collided result key `<tool>_<action>_<i>`. -/
def longKey (t a : String) (k : Nat) : String := longKeyS t a (natDecimal k)

theorem mem_regPairs_elim {p : String × String} (hp : p ∈ regPairs) :
    p = ("github", "search_repos") ∨ p = ("github", "get_repo_info") ∨
    p = ("weather", "get_weather") ∨ p = ("weather", "get_forecast") := by
  simpa [regPairs] using hp

theorem longKeyS_gs (y : String) :
    longKeyS "github" "search_repos" y = "github_search_repos_" ++ y := by
  unfold longKeyS
  congr 1

theorem longKeyS_gi (y : String) :
    longKeyS "github" "get_repo_info" y = "github_get_repo_info_" ++ y := by
  unfold longKeyS
  congr 1

theorem longKeyS_ww (y : String) :
    longKeyS "weather" "get_weather" y = "weather_get_weather_" ++ y := by
  unfold longKeyS
  congr 1

theorem longKeyS_wf (y : String) :
    longKeyS "weather" "get_forecast" y = "weather_get_forecast_" ++ y := by
  unfold longKeyS
  congr 1

theorem err_ne_short (p : String × String) (hp : p ∈ regPairs) (x : String) :
    "error_step_" ++ x ≠ shortKey p.1 p.2 := by
  rcases mem_regPairs_elim hp with rfl | rfl | rfl | rfl <;>
    exact strApp_ne_right _ _ _ 0 (by decide) (by decide)

theorem err_ne_long (p : String × String) (hp : p ∈ regPairs) (x y : String) :
    "error_step_" ++ x ≠ longKeyS p.1 p.2 y := by
  rcases mem_regPairs_elim hp with rfl | rfl | rfl | rfl <;>
    simp only [longKeyS_gs, longKeyS_gi, longKeyS_ww, longKeyS_wf] <;>
    exact strApp_ne _ _ _ _ 0 (by decide) (by decide) (by decide)

theorem err_eq_err {k k2 : Nat}
    (h : "error_step_" ++ natDecimal k = "error_step_" ++ natDecimal k2) : k = k2 :=
  natDecimal_inj (strApp_cancel h)

theorem long_ne_short (p : String × String) (hp : p ∈ regPairs)
    (q : String × String) (hq : q ∈ regPairs) (y : String) :
    longKeyS p.1 p.2 y ≠ shortKey q.1 q.2 := by
  rcases mem_regPairs_elim hp with rfl | rfl | rfl | rfl <;>
    rcases mem_regPairs_elim hq with rfl | rfl | rfl | rfl <;>
    simp only [longKeyS_gs, longKeyS_gi, longKeyS_ww, longKeyS_wf] <;>
    first
      | exact strApp_ne_right _ _ _ 0 (by decide) (by decide)
      | exact strApp_ne_right _ _ _ 7 (by decide) (by decide)
      | exact strApp_ne_right _ _ _ 12 (by decide) (by decide)
      | exact strApp_ne_right _ _ _ 19 (by decide) (by decide)
      | exact strApp_ne_right _ _ _ 20 (by decide) (by decide)

theorem long_eq_long (p : String × String) (hp : p ∈ regPairs)
    (q : String × String) (hq : q ∈ regPairs) (k k2 : Nat)
    (h : longKey p.1 p.2 k = longKey q.1 q.2 k2) : p = q ∧ k = k2 := by
  unfold longKey at h
  rcases mem_regPairs_elim hp with rfl | rfl | rfl | rfl <;>
    rcases mem_regPairs_elim hq with rfl | rfl | rfl | rfl <;>
    simp only [longKeyS_gs, longKeyS_gi, longKeyS_ww, longKeyS_wf] at h <;>
    first
      | exact ⟨rfl, natDecimal_inj (strApp_cancel h)⟩
      | exact absurd h (strApp_ne _ _ _ _ 0 (by decide) (by decide) (by decide))
      | exact absurd h (strApp_ne _ _ _ _ 7 (by decide) (by decide) (by decide))
      | exact absurd h (strApp_ne _ _ _ _ 12 (by decide) (by decide) (by decide))

theorem short_eq_short (p : String × String) (hp : p ∈ regPairs)
    (q : String × String) (hq : q ∈ regPairs)
    (h : shortKey p.1 p.2 = shortKey q.1 q.2) : p = q := by
  rcases mem_regPairs_elim hp with rfl | rfl | rfl | rfl <;>
    rcases mem_regPairs_elim hq with rfl | rfl | rfl | rfl <;>
    first
      | rfl
      | exact absurd h (by decide)

/-! ## Dict lemmas -/

/-- The key list of a dict, in insertion order. -/
def keys (m : Dict) : List String := m.map Prod.fst

theorem keys_append (m m2 : Dict) : keys (m ++ m2) = keys m ++ keys m2 := by
  simp [keys]

theorem hasKey_iff {m : Dict} {k : String} : hasKey m k = true ↔ k ∈ keys m := by
  simp only [hasKey, keys, List.any_eq_true, List.mem_map]
  constructor
  · rintro ⟨p, hp, he⟩
    exact ⟨p, hp, by simpa using he⟩
  · rintro ⟨p, hp, he⟩
    exact ⟨p, hp, by simpa using he⟩

theorem hasKey_false_iff {m : Dict} {k : String} : hasKey m k = false ↔ k ∉ keys m := by
  rw [← Bool.not_eq_true, not_iff_not]
  exact hasKey_iff

theorem setKey_fresh {m : Dict} {k : String} (v : Json) (h : k ∉ keys m) :
    setKey m k v = m ++ [(k, v)] := by
  unfold setKey
  rw [hasKey_false_iff.mpr h]
  simp

theorem lookup_append_left {m : Dict} {k : String} {v : Json} (m2 : Dict)
    (h : Dict.lookup? m k = some v) : Dict.lookup? (m ++ m2) k = some v := by
  induction m with
  | nil => simp [Dict.lookup?] at h
  | cons p rest ih =>
    simp only [List.cons_append, Dict.lookup?] at h ⊢
    by_cases he : p.1 == k
    · simpa [he] using h
    · rw [if_neg (by simpa using he)] at h ⊢
      exact ih h

theorem lookup_append_self {m : Dict} {k : String} (v : Json) (h : k ∉ keys m) :
    Dict.lookup? (m ++ [(k, v)]) k = some v := by
  induction m with
  | nil => simp [Dict.lookup?]
  | cons p rest ih =>
    simp only [keys, List.map_cons, List.mem_cons, not_or] at h
    simp only [List.cons_append, Dict.lookup?]
    rw [if_neg (by simp; exact fun he => h.1 he.symm)]
    exact ih (by simpa [keys] using h.2)

theorem lookup_mem {m : Dict} {k : String} {v : Json}
    (h : Dict.lookup? m k = some v) : k ∈ keys m := by
  induction m with
  | nil => simp [Dict.lookup?] at h
  | cons p rest ih =>
    simp only [Dict.lookup?] at h
    by_cases he : p.1 == k
    · simp [keys, List.mem_cons]
      left
      exact (by simpa using he : p.1 = k).symm
    · rw [if_neg (by simpa using he)] at h
      simp [keys, List.mem_cons]
      right
      simpa [keys] using ih h

/-- `isPrefixList` decides list-prefix. -/
theorem isPrefixList_iff : ∀ l1 l2 : List Char,
    isPrefixList l1 l2 = true ↔ ∃ l3, l2 = l1 ++ l3 := by
  intro l1
  induction l1 with
  | nil => intro l2; simp [isPrefixList]
  | cons a as ih =>
    intro l2
    cases l2 with
    | nil =>
      simp [isPrefixList]
    | cons b bs =>
      simp only [isPrefixList, Bool.and_eq_true, beq_iff_eq, ih bs]
      constructor
      · rintro ⟨rfl, l3, rfl⟩
        exact ⟨l3, rfl⟩
      · rintro ⟨l3, he⟩
        simp only [List.cons_append, List.cons.injEq] at he
        exact ⟨he.1.symm, l3, he.2⟩

/-- A string starts with `error_step_` iff it is `error_step_` followed by
some suffix. -/
theorem errPrefix_iff (s : String) :
    isPrefixList "error_step_".data s.data = true ↔ ∃ x, s = "error_step_" ++ x := by
  rw [isPrefixList_iff]
  constructor
  · rintro ⟨l3, he⟩
    refine ⟨String.mk l3, string_ext ?_⟩
    rw [String.data_append]
    exact he
  · rintro ⟨x, rfl⟩
    exact ⟨x.data, String.data_append ..⟩

/-- Number of `error_step_*` entries in a results dict. -/
def errCount (m : Dict) : Nat :=
  (keys m).countP (fun s => isPrefixList "error_step_".data s.data)

theorem errCount_append (m : Dict) (k : String) (v : Json) :
    errCount (m ++ [(k, v)]) =
      errCount m + (if isPrefixList "error_step_".data k.data then 1 else 0) := by
  simp [errCount, keys_append, keys, List.countP_append, List.countP_cons]

theorem errPrefix_errKey (k : Nat) :
    isPrefixList "error_step_".data ("error_step_" ++ natDecimal k).data = true :=
  (errPrefix_iff _).mpr ⟨natDecimal k, rfl⟩

theorem errPrefix_short (p : String × String) (hp : p ∈ regPairs) :
    isPrefixList "error_step_".data (shortKey p.1 p.2).data = false := by
  rw [← Bool.not_eq_true, errPrefix_iff]
  rintro ⟨x, he⟩
  exact err_ne_short p hp x he.symm

theorem errPrefix_long (p : String × String) (hp : p ∈ regPairs) (y : String) :
    isPrefixList "error_step_".data (longKeyS p.1 p.2 y).data = false := by
  rw [← Bool.not_eq_true, errPrefix_iff]
  rintro ⟨x, he⟩
  exact err_ne_long p hp x y he.symm

theorem errPrefix_longKey (p : String × String) (hp : p ∈ regPairs) (k : Nat) :
    isPrefixList "error_step_".data (longKey p.1 p.2 k).data = false :=
  errPrefix_long p hp (natDecimal k)

/-! ## Executor dispatch lemmas -/

/-- The §6 tool-capability contract: a successful action returns a mapping
or a sequence of mappings. -/
def goodShape : Json → Bool
  | .obj _ => true
  | .arr xs => xs.all (fun x => match x with | .obj _ => true | _ => false)
  | _ => false

/-- An environment whose successful returns obey the tool contract. -/
def envContract (env : Env) : Prop :=
  ∀ t a p v, env t a p = .value v → goodShape v = true

theorem lookupActions_regPairs {t a : String} {acts : List String}
    (h : lookupActions action_map t = some acts) (ha : acts.contains a = true) :
    (t, a) ∈ regPairs := by
  simp only [action_map, lookupActions] at h
  split at h
  · rename_i hgt
    have ht : t = "github" := by simpa using (by simpa using hgt : "github" = t).symm
    subst ht
    injection h with h
    subst h
    simp at ha
    rcases ha with rfl | rfl <;> simp [regPairs]
  · split at h
    · rename_i hwt
      have ht : t = "weather" := by simpa using (by simpa using hwt : "weather" = t).symm
      subst ht
      injection h with h
      subst h
      simp at ha
      rcases ha with rfl | rfl <;> simp [regPairs]
    · exact absurd h (by simp)

theorem execute_step_ok_inv {env : Env} {s : Dict} {v : Json}
    (h : execute_step env s = .ok v) :
    ∃ t a, dget s "tool" = .str t ∧ dget s "action" = .str a ∧ (t, a) ∈ regPairs := by
  simp only [execute_step] at h
  split at h
  · rename_i t heqt
    split at h
    · exact StepResult.noConfusion h
    · rename_i acts heqa
      split at h
      · rename_i a heqs
        split at h
        · rename_i hc
          exact ⟨t, a, heqt, heqs, lookupActions_regPairs heqa hc⟩
        · exact StepResult.noConfusion h
      · exact StepResult.noConfusion h
  · exact StepResult.noConfusion h

theorem execute_step_ok_good {env : Env} {s : Dict} {v : Json}
    (hc : envContract env) (h : execute_step env s = .ok v) : goodShape v = true := by
  simp only [execute_step] at h
  split at h
  · split at h
    · exact StepResult.noConfusion h
    · split at h
      · split at h
        · split at h
          · rename_i henv
            injection h with h
            subst h
            exact hc _ _ _ _ henv
          · rename_i henv
            injection h with h
            subst h
            rfl
          · exact StepResult.noConfusion h
        · exact StepResult.noConfusion h
      · exact StepResult.noConfusion h
  · exact StepResult.noConfusion h

theorem classify_good {v : Json} (h : goodShape v = true) (m : String) :
    classify v ≠ .raised m := by
  cases v with
  | obj fs =>
    by_cases ht : truthy (dget fs "error") <;> simp [classify, ht]
  | arr xs =>
    cases xs with
    | nil => intro h2; exact ClassifyOut.noConfusion h2
    | cons x rest =>
      cases x with
      | obj fs =>
        by_cases ht : truthy (dget fs "error") <;> simp [classify, ht]
      | null => exact absurd h (by simp [goodShape])
      | bool b => exact absurd h (by simp [goodShape])
      | num n => exact absurd h (by simp [goodShape])
      | str s2 => exact absurd h (by simp [goodShape])
      | arr ys => exact absurd h (by simp [goodShape])
  | null => exact absurd h (by simp [goodShape])
  | bool b => exact absurd h (by simp [goodShape])
  | num n => exact absurd h (by simp [goodShape])
  | str s2 => exact absurd h (by simp [goodShape])

/-! ## The executor loop invariant -/

/-- Contribution of a step to `steps_executed`. -/
def execInc (env : Env) (s : Dict) : Nat :=
  match execute_step env s with
  | .ok _ => 1
  | .exn _ => 0

/-- Contribution of a step to `steps_failed`. -/
def failInc (env : Env) (s : Dict) : Nat :=
  match execute_step env s with
  | .exn _ => 1
  | .ok v =>
    match classify v with
    | .noInc => 0
    | _ => 1

/-- Shape of any key present in the results dict after the first `i` steps. -/
def KeyShape (i : Nat) (key : String) : Prop :=
  (∃ p, p ∈ regPairs ∧ key = shortKey p.1 p.2) ∨
  (∃ p k, p ∈ regPairs ∧ k < i ∧ key = longKey p.1 p.2 k) ∨
  (∃ k, k < i ∧ key = "error_step_" ++ natDecimal k)

/-- The loop invariant on the results dict: all keys well-shaped, no
duplicate keys. -/
def KeysOK (i : Nat) (m : Dict) : Prop :=
  (∀ key ∈ keys m, KeyShape i key) ∧ (keys m).Nodup

theorem KeyShape.mono {i j : Nat} (hij : i ≤ j) {key : String} :
    KeyShape i key → KeyShape j key := by
  rintro (h | ⟨p, k, hp, hk, he⟩ | ⟨k, hk, he⟩)
  · exact Or.inl h
  · exact Or.inr (Or.inl ⟨p, k, hp, by omega, he⟩)
  · exact Or.inr (Or.inr ⟨k, by omega, he⟩)

theorem KeysOK_mono {i j : Nat} {m : Dict} (hij : i ≤ j) (h : KeysOK i m) : KeysOK j m :=
  ⟨fun key hk => KeyShape.mono hij (h.1 key hk), h.2⟩

theorem errKey_fresh {i : Nat} {m : Dict} (h : KeysOK i m) :
    ("error_step_" ++ natDecimal i) ∉ keys m := by
  intro hm
  rcases h.1 _ hm with ⟨p, hp, he⟩ | ⟨p, k, hp, hk, he⟩ | ⟨k, hk, he⟩
  · exact err_ne_short p hp _ he
  · exact err_ne_long p hp _ _ he
  · have := err_eq_err he
    omega

theorem longKey_fresh {i : Nat} {m : Dict} {p : String × String}
    (hp : p ∈ regPairs) (h : KeysOK i m) : longKey p.1 p.2 i ∉ keys m := by
  intro hm
  rcases h.1 _ hm with ⟨q, hq, he⟩ | ⟨q, k, hq, hk, he⟩ | ⟨k, hk, he⟩
  · exact long_ne_short p hp q hq _ he
  · have := (long_eq_long p hp q hq i k he).2
    omega
  · exact err_ne_long p hp _ _ he.symm

theorem KeysOK_snoc {i : Nat} {m : Dict} {k : String} (v : Json)
    (h : KeysOK i m) (hf : k ∉ keys m) (hs : KeyShape i k) :
    KeysOK i (m ++ [(k, v)]) := by
  constructor
  · intro key hkey
    rw [keys_append] at hkey
    rcases List.mem_append.mp hkey with hk1 | hk2
    · exact h.1 key hk1
    · have : key = k := by simpa [keys] using hk2
      subst this
      exact hs
  · rw [keys_append]
    refine List.Nodup.append h.2 (List.nodup_singleton k) ?_
    intro x hx hx2
    have : x = k := by simpa [keys] using hx2
    subst this
    exact hf hx

/-- Reduction of the loop body on a successfully dispatched step. -/
theorem execStepInPlan_ok (env : Env) (r : Report) (i : Nat) (s : Dict)
    (v : Json) (t a : String) (hstep : execute_step env s = .ok v)
    (htool : dget s "tool" = .str t) (hact : dget s "action" = .str a) :
    execStepInPlan env r i s =
      (let key := if hasKey r.results (shortKey t a) then longKey t a i
                  else shortKey t a
       let r1 : Report :=
         { r with results := setKey r.results key v,
                  steps_executed := r.steps_executed + 1 }
       match classify v with
       | .failedInc => { r1 with steps_failed := r1.steps_failed + 1 }
       | .noInc => r1
       | .raised m =>
         { r1 with
           results := setKey r1.results ("error_step_" ++ natDecimal i) (errRecord m s),
           steps_failed := r1.steps_failed + 1 }) := by
  simp only [execStepInPlan, hstep, htool, hact]
  rfl

/-- One loop iteration preserves the key invariant, and every binding
already present keeps its value. -/
theorem step_inv (env : Env) (r : Report) (i : Nat) (s : Dict)
    (h : KeysOK i r.results) :
    KeysOK (i + 1) (execStepInPlan env r i s).results ∧
    (∀ k v, Dict.lookup? r.results k = some v →
      Dict.lookup? (execStepInPlan env r i s).results k = some v) := by
  cases hstep : execute_step env s with
  | exn m =>
    simp only [execStepInPlan, hstep]
    rw [setKey_fresh _ (errKey_fresh h)]
    constructor
    · exact KeysOK_snoc _ (KeysOK_mono (Nat.le_succ i) h) (errKey_fresh h)
        (Or.inr (Or.inr ⟨i, by omega, rfl⟩))
    · intro k v hl
      exact lookup_append_left _ hl
  | ok v =>
    obtain ⟨t, a, htool, hact, hreg⟩ := execute_step_ok_inv hstep
    rw [execStepInPlan_ok env r i s v t a hstep htool hact]
    by_cases hck : hasKey r.results (shortKey t a)
    · rw [if_pos hck]
      cases hclv : classify v <;> dsimp only
      case pos.failedInc | pos.noInc =>
        rw [setKey_fresh _ (longKey_fresh hreg h)]
        exact ⟨KeysOK_snoc _ (KeysOK_mono (Nat.le_succ i) h) (longKey_fresh hreg h)
            (Or.inr (Or.inl ⟨(t, a), i, hreg, by omega, rfl⟩)),
          fun k v2 hl => lookup_append_left _ hl⟩
      case pos.raised m =>
        have hf1 : longKey t a i ∉ keys r.results := longKey_fresh hreg h
        rw [setKey_fresh _ hf1]
        have hf2 : ("error_step_" ++ natDecimal i) ∉
            keys (r.results ++ [(longKey t a i, v)]) := by
          rw [keys_append]
          intro hmem
          rcases List.mem_append.mp hmem with h1 | h2
          · exact errKey_fresh h h1
          · have : ("error_step_" ++ natDecimal i) = longKey t a i := by
              simpa [keys] using h2
            exact err_ne_long (t, a) hreg _ _ this
        rw [setKey_fresh _ hf2]
        refine ⟨KeysOK_snoc _ ?_ hf2 (Or.inr (Or.inr ⟨i, by omega, rfl⟩)), ?_⟩
        · exact KeysOK_snoc _ (KeysOK_mono (Nat.le_succ i) h) hf1
            (Or.inr (Or.inl ⟨(t, a), i, hreg, by omega, rfl⟩))
        · intro k v2 hl
          exact lookup_append_left _ (lookup_append_left _ hl)
    · rw [if_neg hck]
      have hf : shortKey t a ∉ keys r.results := hasKey_false_iff.mp (by simpa using hck)
      cases hclv : classify v <;> dsimp only
      case neg.failedInc | neg.noInc =>
        rw [setKey_fresh _ hf]
        exact ⟨KeysOK_snoc _ (KeysOK_mono (Nat.le_succ i) h) hf
            (Or.inl ⟨(t, a), hreg, rfl⟩),
          fun k v2 hl => lookup_append_left _ hl⟩
      case neg.raised m =>
        rw [setKey_fresh _ hf]
        have hf2 : ("error_step_" ++ natDecimal i) ∉
            keys (r.results ++ [(shortKey t a, v)]) := by
          rw [keys_append]
          intro hmem
          rcases List.mem_append.mp hmem with h1 | h2
          · exact errKey_fresh h h1
          · have : ("error_step_" ++ natDecimal i) = shortKey t a := by
              simpa [keys] using h2
            exact err_ne_short (t, a) hreg _ this
        rw [setKey_fresh _ hf2]
        refine ⟨KeysOK_snoc _ ?_ hf2 (Or.inr (Or.inr ⟨i, by omega, rfl⟩)), ?_⟩
        · exact KeysOK_snoc _ (KeysOK_mono (Nat.le_succ i) h) hf
            (Or.inl ⟨(t, a), hreg, rfl⟩)
        · intro k v2 hl
          exact lookup_append_left _ (lookup_append_left _ hl)

/-- One loop iteration adds exactly its per-step contributions to the two
counters. -/
theorem step_counts (env : Env) (r : Report) (i : Nat) (s : Dict) :
    (execStepInPlan env r i s).steps_executed = r.steps_executed + execInc env s ∧
    (execStepInPlan env r i s).steps_failed = r.steps_failed + failInc env s := by
  cases hstep : execute_step env s with
  | exn m => simp [execStepInPlan, hstep, execInc, failInc]
  | ok v =>
    simp only [execStepInPlan, hstep]
    cases hclv : classify v <;>
      simp [execInc, failInc, hstep, hclv]

/-- Under the tool contract, one loop iteration adds exactly one results
entry, and the entry is an `error_step_*` entry exactly when the dispatch
raised. -/
theorem step_len (env : Env) (r : Report) (i : Nat) (s : Dict)
    (hc : envContract env) (h : KeysOK i r.results) :
    (execStepInPlan env r i s).results.length = r.results.length + 1 ∧
    errCount (execStepInPlan env r i s).results =
      errCount r.results + (1 - execInc env s) := by
  cases hstep : execute_step env s with
  | exn m =>
    simp only [execStepInPlan, hstep]
    rw [setKey_fresh _ (errKey_fresh h)]
    refine ⟨by simp, ?_⟩
    rw [errCount_append, errPrefix_errKey i]
    simp [execInc, hstep]
  | ok v =>
    obtain ⟨t, a, htool, hact, hreg⟩ := execute_step_ok_inv hstep
    rw [execStepInPlan_ok env r i s v t a hstep htool hact]
    have hgood := execute_step_ok_good hc hstep
    by_cases hck : hasKey r.results (shortKey t a)
    · rw [if_pos hck]
      cases hclv : classify v <;> dsimp only
      case pos.failedInc | pos.noInc =>
        rw [setKey_fresh _ (longKey_fresh hreg h)]
        refine ⟨by simp, ?_⟩
        rw [errCount_append, errPrefix_longKey (t, a) hreg i]
        simp [execInc, hstep]
      case pos.raised m => exact absurd hclv (classify_good hgood m)
    · rw [if_neg hck]
      have hf : shortKey t a ∉ keys r.results := hasKey_false_iff.mp (by simpa using hck)
      cases hclv : classify v <;> dsimp only
      case neg.failedInc | neg.noInc =>
        rw [setKey_fresh _ hf]
        refine ⟨by simp, ?_⟩
        rw [errCount_append, errPrefix_short (t, a) hreg]
        simp [execInc, hstep]
      case neg.raised m => exact absurd hclv (classify_good hgood m)

/-- The loop preserves the key invariant and existing bindings. -/
theorem aux_inv (env : Env) : ∀ (steps : List Dict) (i : Nat) (r : Report),
    KeysOK i r.results →
    KeysOK (i + steps.length) (execPlanAux env i steps r).results ∧
    (∀ k v, Dict.lookup? r.results k = some v →
      Dict.lookup? (execPlanAux env i steps r).results k = some v) := by
  intro steps
  induction steps with
  | nil =>
    intro i r h
    exact ⟨by simpa using h, fun k v hl => hl⟩
  | cons s rest ih =>
    intro i r h
    have hs := step_inv env r i s h
    have hr := ih (i + 1) (execStepInPlan env r i s) hs.1
    constructor
    · have he : i + (s :: rest).length = (i + 1) + rest.length := by
        simp
        omega
      rw [he]
      exact hr.1
    · intro k v hl
      exact hr.2 k v (hs.2 k v hl)

/-- The two counters decompose as sums of per-step contributions. -/
theorem aux_counts (env : Env) : ∀ (steps : List Dict) (i : Nat) (r : Report),
    (execPlanAux env i steps r).steps_executed =
      r.steps_executed + (steps.map (execInc env)).sum ∧
    (execPlanAux env i steps r).steps_failed =
      r.steps_failed + (steps.map (failInc env)).sum := by
  intro steps
  induction steps with
  | nil => intro i r; simp [execPlanAux]
  | cons s rest ih =>
    intro i r
    have hs := step_counts env r i s
    have hr := ih (i + 1) (execStepInPlan env r i s)
    constructor
    · rw [show execPlanAux env i (s :: rest) r =
          execPlanAux env (i + 1) rest (execStepInPlan env r i s) from rfl,
        hr.1, hs.1]
      simp
      omega
    · rw [show execPlanAux env i (s :: rest) r =
          execPlanAux env (i + 1) rest (execStepInPlan env r i s) from rfl,
        hr.2, hs.2]
      simp
      omega

/-- Under the tool contract the results dict gains exactly one entry per
step, and executed steps plus `error_step_*` entries account for all
steps. -/
theorem aux_len (env : Env) (hc : envContract env) :
    ∀ (steps : List Dict) (i : Nat) (r : Report), KeysOK i r.results →
    (execPlanAux env i steps r).results.length = r.results.length + steps.length ∧
    errCount (execPlanAux env i steps r).results +
        (execPlanAux env i steps r).steps_executed =
      errCount r.results + r.steps_executed + steps.length := by
  intro steps
  induction steps with
  | nil => intro i r h; simp [execPlanAux]
  | cons s rest ih =>
    intro i r h
    have hs := step_len env r i s hc h
    have hcnt := step_counts env r i s
    have hr := ih (i + 1) (execStepInPlan env r i s) (step_inv env r i s h).1
    constructor
    · rw [show execPlanAux env i (s :: rest) r =
          execPlanAux env (i + 1) rest (execStepInPlan env r i s) from rfl,
        hr.1, hs.1]
      simp
      omega
    · rw [show execPlanAux env i (s :: rest) r =
          execPlanAux env (i + 1) rest (execStepInPlan env r i s) from rfl,
        hr.2, hs.2, hcnt.1]
      have hle : execInc env s ≤ 1 := by
        unfold execInc
        split <;> omega
      simp
      omega

theorem KeysOK_nil : KeysOK 0 ([] : Dict) := by
  constructor
  · intro key hk
    simp [keys] at hk
  · simp [keys]

theorem execPlanAux_append (env : Env) (l1 l2 : List Dict) :
    ∀ (i : Nat) (r : Report), execPlanAux env i (l1 ++ l2) r =
      execPlanAux env (i + l1.length) l2 (execPlanAux env i l1 r) := by
  induction l1 with
  | nil => intro i r; simp [execPlanAux]
  | cons s rest ih =>
    intro i r
    show execPlanAux env (i + 1) (rest ++ l2) (execStepInPlan env r i s) = _
    rw [ih (i + 1)]
    have he : (i + 1) + rest.length = i + (s :: rest).length := by
      simp
      omega
    rw [he]
    rfl

/-- A step whose tool or action is not in the registry. -/
def unknownStep (s : Dict) : Bool :=
  match dget s "tool" with
  | .str t =>
    match lookupActions action_map t with
    | none => true
    | some actions =>
      match dget s "action" with
      | .str a => !actions.contains a
      | _ => true
  | _ => true

/-- Dispatching an unknown-tool/action step raises (a `ValueError` in the
source, caught by `execute_plan`). -/
theorem unknownStep_exn (env : Env) (s : Dict) (h : unknownStep s = true) :
    ∃ m, execute_step env s = .exn m := by
  cases hstep : execute_step env s with
  | exn m => exact ⟨m, rfl⟩
  | ok v =>
    exfalso
    obtain ⟨t, a, htool, hact, hreg⟩ := execute_step_ok_inv hstep
    have hfalse : unknownStep s = false := by
      rcases mem_regPairs_elim hreg with h4 | h4 | h4 | h4 <;>
        (simp only [Prod.ext_iff] at h4
         obtain ⟨rfl, rfl⟩ := h4
         simp [unknownStep, htool, hact, lookupActions, action_map])
    rw [h] at hfalse
    exact Bool.noConfusion hfalse

/-- Reduction of the loop body on a step whose dispatch raises. -/
theorem execStepInPlan_exn (env : Env) (r : Report) (i : Nat) (s : Dict)
    (m : String) (hstep : execute_step env s = .exn m) :
    execStepInPlan env r i s =
      { r with
        results := setKey r.results ("error_step_" ++ natDecimal i) (errRecord m s),
        steps_failed := r.steps_failed + 1 } := by
  simp only [execStepInPlan, hstep]

/-- After a successful dispatch without a key collision, the value sits
under the short key. -/
theorem execStepInPlan_lookup_short (env : Env) (r : Report) (i : Nat) (s : Dict)
    (v : Json) (t a : String) (hstep : execute_step env s = .ok v)
    (htool : dget s "tool" = .str t) (hact : dget s "action" = .str a)
    (hta : (t, a) ∈ regPairs) (h : KeysOK i r.results)
    (hck : hasKey r.results (shortKey t a) = false) :
    Dict.lookup? (execStepInPlan env r i s).results (shortKey t a) = some v := by
  rw [execStepInPlan_ok env r i s v t a hstep htool hact, if_neg (by simp [hck])]
  have hf : shortKey t a ∉ keys r.results := hasKey_false_iff.mp hck
  cases hclv : classify v <;> dsimp only
  case failedInc | noInc =>
    rw [setKey_fresh _ hf]
    exact lookup_append_self _ hf
  case raised m =>
    rw [setKey_fresh _ hf]
    have hf2 : ("error_step_" ++ natDecimal i) ∉ keys (r.results ++ [(shortKey t a, v)]) := by
      rw [keys_append]
      intro hmem
      rcases List.mem_append.mp hmem with hm1 | hm2
      · exact errKey_fresh h hm1
      · exact err_ne_short (t, a) hta _ (by simpa [keys] using hm2)
    rw [setKey_fresh _ hf2]
    exact lookup_append_left _ (lookup_append_self _ hf)

/-- After a successful dispatch with a key collision, the value sits under
the index-suffixed key. -/
theorem execStepInPlan_lookup_long (env : Env) (r : Report) (i : Nat) (s : Dict)
    (v : Json) (t a : String) (hstep : execute_step env s = .ok v)
    (htool : dget s "tool" = .str t) (hact : dget s "action" = .str a)
    (hta : (t, a) ∈ regPairs) (h : KeysOK i r.results)
    (hck : hasKey r.results (shortKey t a) = true) :
    Dict.lookup? (execStepInPlan env r i s).results (longKey t a i) = some v := by
  rw [execStepInPlan_ok env r i s v t a hstep htool hact, if_pos hck]
  have hf : longKey t a i ∉ keys r.results := longKey_fresh hta h
  cases hclv : classify v <;> dsimp only
  case failedInc | noInc =>
    rw [setKey_fresh _ hf]
    exact lookup_append_self _ hf
  case raised m =>
    rw [setKey_fresh _ hf]
    have hf2 : ("error_step_" ++ natDecimal i) ∉ keys (r.results ++ [(longKey t a i, v)]) := by
      rw [keys_append]
      intro hmem
      rcases List.mem_append.mp hmem with hm1 | hm2
      · exact errKey_fresh h hm1
      · exact err_ne_long (t, a) hta _ _ (by simpa [keys] using hm2)
    rw [setKey_fresh _ hf2]
    exact lookup_append_left _ (lookup_append_self _ hf)

/-- If no step of a segment carries the (tool, action) pair, the short key
of that pair stays absent throughout the segment. -/
theorem aux_avoid (env : Env) (t a : String) (hta : (t, a) ∈ regPairs) :
    ∀ (steps : List Dict) (i : Nat) (r : Report), KeysOK i r.results →
    shortKey t a ∉ keys r.results →
    (∀ s2 ∈ steps, ¬(dget s2 "tool" = .str t ∧ dget s2 "action" = .str a)) →
    shortKey t a ∉ keys (execPlanAux env i steps r).results := by
  intro steps
  induction steps with
  | nil => intro i r _ hav _; exact hav
  | cons s rest ih =>
    intro i r h hav hall
    refine ih (i + 1) (execStepInPlan env r i s) (step_inv env r i s h).1 ?_
      (fun s2 hs2 => hall s2 (List.mem_cons_of_mem s hs2))
    cases hstep : execute_step env s with
    | exn m =>
      rw [execStepInPlan_exn env r i s m hstep]
      dsimp only
      rw [setKey_fresh _ (errKey_fresh h), keys_append]
      intro hmem
      rcases List.mem_append.mp hmem with hm1 | hm2
      · exact hav hm1
      · have he : shortKey t a = "error_step_" ++ natDecimal i := by
          simpa [keys] using hm2
        exact err_ne_short (t, a) hta _ he.symm
    | ok v =>
      obtain ⟨t2, a2, htool, hact, hreg⟩ := execute_step_ok_inv hstep
      rw [execStepInPlan_ok env r i s v t2 a2 hstep htool hact]
      have hne : shortKey t a ≠ shortKey t2 a2 := by
        intro he
        have hpq := short_eq_short (t, a) hta (t2, a2) hreg he
        simp only [Prod.ext_iff] at hpq
        obtain ⟨rfl, rfl⟩ := hpq
        exact hall s (List.mem_cons_self s rest) ⟨htool, hact⟩
      have hnel : shortKey t a ≠ longKey t2 a2 i := by
        intro he
        exact long_ne_short (t2, a2) hreg (t, a) hta _ he.symm
      have hnee : shortKey t a ≠ "error_step_" ++ natDecimal i := by
        intro he
        exact err_ne_short (t, a) hta _ he.symm
      by_cases hck : hasKey r.results (shortKey t2 a2)
      · rw [if_pos hck]
        have hf : longKey t2 a2 i ∉ keys r.results := longKey_fresh hreg h
        cases hclv : classify v <;> dsimp only
        case pos.failedInc | pos.noInc =>
          rw [setKey_fresh _ hf, keys_append]
          intro hmem
          rcases List.mem_append.mp hmem with hm1 | hm2
          · exact hav hm1
          · exact hnel (by simpa [keys] using hm2)
        case pos.raised m =>
          rw [setKey_fresh _ hf]
          have hf2 : ("error_step_" ++ natDecimal i) ∉
              keys (r.results ++ [(longKey t2 a2 i, v)]) := by
            rw [keys_append]
            intro hmem
            rcases List.mem_append.mp hmem with hm1 | hm2
            · exact errKey_fresh h hm1
            · have he : ("error_step_" ++ natDecimal i) = longKey t2 a2 i := by
                simpa [keys] using hm2
              exact err_ne_long (t2, a2) hreg _ _ he
          rw [setKey_fresh _ hf2, keys_append, keys_append]
          intro hmem
          rcases List.mem_append.mp hmem with hm1 | hm2
          · rcases List.mem_append.mp hm1 with hm3 | hm4
            · exact hav hm3
            · exact hnel (by simpa [keys] using hm4)
          · exact hnee (by simpa [keys] using hm2)
      · rw [if_neg hck]
        have hf : shortKey t2 a2 ∉ keys r.results :=
          hasKey_false_iff.mp (by simpa using hck)
        cases hclv : classify v <;> dsimp only
        case neg.failedInc | neg.noInc =>
          rw [setKey_fresh _ hf, keys_append]
          intro hmem
          rcases List.mem_append.mp hmem with hm1 | hm2
          · exact hav hm1
          · exact hne (by simpa [keys] using hm2)
        case neg.raised m =>
          rw [setKey_fresh _ hf]
          have hf2 : ("error_step_" ++ natDecimal i) ∉
              keys (r.results ++ [(shortKey t2 a2, v)]) := by
            rw [keys_append]
            intro hmem
            rcases List.mem_append.mp hmem with hm1 | hm2
            · exact errKey_fresh h hm1
            · have he : ("error_step_" ++ natDecimal i) = shortKey t2 a2 := by
                simpa [keys] using hm2
              exact err_ne_short (t2, a2) hreg _ he
          rw [setKey_fresh _ hf2, keys_append, keys_append]
          intro hmem
          rcases List.mem_append.mp hmem with hm1 | hm2
          · rcases List.mem_append.mp hm1 with hm3 | hm4
            · exact hav hm3
            · exact hne (by simpa [keys] using hm4)
          · exact hnee (by simpa [keys] using hm2)

/-! ## Verifier lemmas -/

theorem basicCheckEntry_mf (v : Verdict) (kv : String × Json) :
    (basicCheckEntry v kv).missing_fields = v.missing_fields := by
  obtain ⟨k, val⟩ := kv
  cases val with
  | obj fs => by_cases ht : truthy (dget fs "error") <;> simp [basicCheckEntry, ht]
  | arr xs =>
    cases xs with
    | nil => rfl
    | cons x rest =>
      cases x with
      | obj fs => by_cases ht : truthy (dget fs "error") <;> simp [basicCheckEntry, ht]
      | null => rfl
      | bool b => rfl
      | num n => rfl
      | str s2 => rfl
      | arr ys => rfl
  | null => rfl
  | bool b => rfl
  | num n => rfl
  | str s2 => rfl

theorem foldl_basicCheck_mf (l : Dict) : ∀ v : Verdict,
    (l.foldl basicCheckEntry v).missing_fields = v.missing_fields := by
  induction l with
  | nil => intro v; rfl
  | cons kv rest ih =>
    intro v
    rw [List.foldl_cons, ih, basicCheckEntry_mf]

/-- Basic validation never populates `missing_fields`. -/
theorem basic_validation_mf (r : Report) : (basic_validation r).missing_fields = [] := by
  unfold basic_validation
  rw [foldl_basicCheck_mf]
  dsimp only
  split <;> split <;> rfl

theorem basicCheckEntry_off (v : Verdict) (kv : String × Json)
    (h1 : v.status ≠ "success") (h2 : v.errors ≠ []) :
    (basicCheckEntry v kv).status ≠ "success" ∧ (basicCheckEntry v kv).errors ≠ [] := by
  obtain ⟨k, val⟩ := kv
  have hb : (v.status == "success") = false := by
    simpa using h1
  cases val with
  | obj fs =>
    by_cases ht : truthy (dget fs "error") <;> simp [basicCheckEntry, ht, hb, h1, h2]
  | arr xs =>
    cases xs with
    | nil => exact ⟨h1, h2⟩
    | cons x rest =>
      cases x with
      | obj fs =>
        by_cases ht : truthy (dget fs "error") <;> simp [basicCheckEntry, ht, hb, h1, h2]
      | null => exact ⟨h1, h2⟩
      | bool b => exact ⟨h1, h2⟩
      | num n => exact ⟨h1, h2⟩
      | str s2 => exact ⟨h1, h2⟩
      | arr ys => exact ⟨h1, h2⟩
  | null => exact ⟨h1, h2⟩
  | bool b => exact ⟨h1, h2⟩
  | num n => exact ⟨h1, h2⟩
  | str s2 => exact ⟨h1, h2⟩

theorem foldl_basicCheck_off (l : Dict) : ∀ v : Verdict,
    v.status ≠ "success" → v.errors ≠ [] →
    (l.foldl basicCheckEntry v).status ≠ "success" ∧
      (l.foldl basicCheckEntry v).errors ≠ [] := by
  induction l with
  | nil => intro v h1 h2; exact ⟨h1, h2⟩
  | cons kv rest ih =>
    intro v h1 h2
    have := basicCheckEntry_off v kv h1 h2
    exact ih (basicCheckEntry v kv) this.1 this.2

/-- An entry that is a mapping with a truthy `error` field knocks the
verdict off `success` and contributes an error string. -/
theorem basicCheckEntry_trigger (v : Verdict) (k : String) (fs : List (String × Json))
    (h : truthy (dget fs "error") = true) :
    (basicCheckEntry v (k, .obj fs)).status ≠ "success" ∧
      (basicCheckEntry v (k, .obj fs)).errors ≠ [] := by
  by_cases hs : (v.status == "success") = true <;> simp [basicCheckEntry, h, hs]
  intro he
  exact absurd he (by simpa using hs)

/-- The github accumulation of the grouping loop, taken on its own:
entries whose key contains `github` are flattened in (list values) or
appended (dict values). -/
def gAccStep (acc : List Json) (kv : String × Json) : List Json :=
  if strContains kv.1 "github" then
    match kv.2 with
    | .arr xs => acc ++ xs
    | .obj _ => acc ++ [kv.2]
    | _ => acc
  else acc

/-- The weather accumulation of the grouping loop, taken on its own
(the `elif` of the source: a key containing `github` is consumed by the
github branch first). -/
def wAccStep (acc : Dict) (kv : String × Json) : Dict :=
  if strContains kv.1 "github" then acc
  else if strContains kv.1 "weather" then
    match kv.2 with
    | .obj fs => fs
    | _ => acc
  else acc

/-- The weather accumulation as the specification words it: among entries
whose key contains `weather`, the last dict-valued one wins. -/
def wSpecStep (acc : Dict) (kv : String × Json) : Dict :=
  if strContains kv.1 "weather" then
    match kv.2 with
    | .obj fs => fs
    | _ => acc
  else acc

theorem formatGroupEntry_split (acc : List Json × Dict) (kv : String × Json) :
    formatGroupEntry acc kv = (gAccStep acc.1 kv, wAccStep acc.2 kv) := by
  obtain ⟨g, w⟩ := acc
  obtain ⟨k, val⟩ := kv
  by_cases h1 : strContains k "github"
  · cases val <;> simp [formatGroupEntry, gAccStep, wAccStep, h1]
  · by_cases h2 : strContains k "weather"
    · cases val <;> simp [formatGroupEntry, gAccStep, wAccStep, h1, h2]
    · simp [formatGroupEntry, gAccStep, wAccStep, h1, h2]

theorem foldl_group_split (l : Dict) : ∀ (g : List Json) (w : Dict),
    l.foldl formatGroupEntry (g, w) = (l.foldl gAccStep g, l.foldl wAccStep w) := by
  induction l with
  | nil => intro g w; rfl
  | cons kv rest ih =>
    intro g w
    rw [List.foldl_cons, formatGroupEntry_split, ih, List.foldl_cons, List.foldl_cons]

/-- When no key contains both `github` and `weather`, the code grouping for
weather agrees with the specification wording. -/
theorem wAcc_eq_spec (l : Dict)
    (hsep : ∀ kv ∈ l, strContains kv.1 "weather" = true →
      strContains kv.1 "github" = false) :
    ∀ w : Dict, l.foldl wAccStep w = l.foldl wSpecStep w := by
  induction l with
  | nil => intro w; rfl
  | cons kv rest ih =>
    intro w
    have hstep : wAccStep w kv = wSpecStep w kv := by
      by_cases h1 : strContains kv.1 "github"
      · have h2 : strContains kv.1 "weather" = false := by
          by_cases h3 : strContains kv.1 "weather"
          · exact absurd (hsep kv (List.mem_cons_self kv rest) h3) (by simp [h1])
          · simpa using h3
        simp [wAccStep, wSpecStep, h1, h2]
      · simp [wAccStep, wSpecStep, h1]
    rw [List.foldl_cons, List.foldl_cons, hstep]
    exact ih (fun kv2 hm h2 => hsep kv2 (List.mem_cons_of_mem kv hm) h2) _

theorem format_results_status (r : Report) (v : Verdict) :
    getField (format_results r v) "status" = .str v.status := rfl

theorem format_results_mf (r : Report) (v : Verdict) :
    getField (format_results r v) "missing_fields" =
      .arr (v.missing_fields.map .str) := rfl

theorem format_results_errors (r : Report) (v : Verdict) :
    getField (format_results r v) "errors" = .arr (v.errors.map .str) := rfl

theorem format_results_results (r : Report) (v : Verdict) :
    getField (format_results r v) "results" =
      .obj ((match r.results.foldl gAccStep [] with
             | [] => []
             | xs => [("github_repos", .arr xs)]) ++
            (match r.results.foldl wAccStep [] with
             | [] => []
             | fs => [("weather", .obj fs)])) := by
  have h0 : getField (format_results r v) "results" =
      .obj ((match (r.results.foldl formatGroupEntry ([], [])).1 with
             | [] => []
             | xs => [("github_repos", .arr xs)]) ++
            (match (r.results.foldl formatGroupEntry ([], [])).2 with
             | [] => []
             | fs => [("weather", .obj fs)])) := rfl
  rw [h0, foldl_group_split]

/-- On a `success` basic verdict the LLM is never consulted. -/
theorem verify_success (r : Report) (llm : Except String Json)
    (h : (basic_validation r).status = "success") :
    verify_and_format r llm = format_results r (basic_validation r) := by
  unfold verify_and_format
  rw [if_pos (by simp [h])]

/-- When the LLM verification path raises, the deterministic formatter
output on the basic verdict is returned. -/
theorem verify_fallback (r : Report) (llm : Except String Json) (e : String)
    (h : llm_verification llm = .error e) :
    verify_and_format r llm = format_results r (basic_validation r) := by
  unfold verify_and_format
  by_cases hs : ((basic_validation r).status == "success") = true
  · rw [if_pos hs]
  · rw [if_neg hs, h]

/-! ## Claim theorems -/

/-- String content of a Json value, when it is a string. -/
def jsonStrVal : Json → Option String
  | .str s => some s
  | _ => none

/-- C1: for every plan (under the §6 tool contract that successful action
returns are mappings or sequences of mappings), the report returned by
`execute_plan` satisfies the aggregate invariant: `steps_executed` plus the
number of synthetic `error_step_*` entries is at most the number of plan
steps, and every plan step produces exactly one entry in `results` (keyed
per the collision rule), so the results dict has exactly one entry per
step. -/
theorem C1_aggregate_invariant (env : Env) (steps : List Dict)
    (hc : envContract env) :
    (execute_plan env steps).steps_executed +
        errCount (execute_plan env steps).results ≤ steps.length ∧
    (execute_plan env steps).results.length = steps.length := by
  have h := aux_len env hc steps 0 ⟨0, 0, []⟩ KeysOK_nil
  have h1 := h.1
  have h2 := h.2
  have e1 : errCount (Report.mk 0 0 []).results = 0 := rfl
  have e2 : (Report.mk 0 0 [] : Report).steps_executed = 0 := rfl
  have e3 : (Report.mk 0 0 [] : Report).results.length = 0 := rfl
  rw [e1, e2] at h2
  rw [e3] at h1
  constructor
  · show (execPlanAux env 0 steps ⟨0, 0, []⟩).steps_executed +
        errCount (execPlanAux env 0 steps ⟨0, 0, []⟩).results ≤ steps.length
    omega
  · show (execPlanAux env 0 steps ⟨0, 0, []⟩).results.length = steps.length
    omega

theorem C1_witness :
    (execute_plan (fun _ _ _ => .value (.obj []))
        [[("tool", .str "github"), ("action", .str "search_repos"),
          ("params", .obj [])]]).steps_executed +
      errCount (execute_plan (fun _ _ _ => .value (.obj []))
        [[("tool", .str "github"), ("action", .str "search_repos"),
          ("params", .obj [])]]).results ≤ 1 ∧
    (execute_plan (fun _ _ _ => .value (.obj []))
        [[("tool", .str "github"), ("action", .str "search_repos"),
          ("params", .obj [])]]).results.length = 1 :=
  C1_aggregate_invariant _ _ (fun t a p v h => by cases h; rfl)

/-- C2: for every execution report, whenever the LLM verification path
raises (which is how an unparsable or non-mapping LLM response manifests,
since `generate_json` raises on unparsable output and the backfill raises
on non-mapping output), `verify_and_format` does not raise and returns
exactly the FinalResult the deterministic formatter applied to the
basic-validation verdict of the same report produces. -/
theorem C2_fallback_is_deterministic (r : Report) (llm : Except String Json)
    (e : String) (h : llm_verification llm = .error e) :
    verify_and_format r llm = format_results r (basic_validation r) :=
  verify_fallback r llm e h

theorem C2_witness :
    llm_verification (.error "boom") = .error "boom" ∧
    verify_and_format ⟨1, 1, []⟩ (.error "boom") =
      format_results ⟨1, 1, []⟩ (basic_validation ⟨1, 1, []⟩) :=
  ⟨rfl, C2_fallback_is_deterministic ⟨1, 1, []⟩ (.error "boom") "boom" rfl⟩

/-- The report produced by executing the weather `get_forecast` stub once
(the stub returns `{city, forecast: [], error: "Forecast not implemented"}`,
a mapping whose `error` field is a truthy non-boolean). -/
def forecastReport : Report :=
  ⟨1, 0, [("weather_get_forecast", get_weather_forecast "Paris")]⟩

/-- C3 counterexample: basic validation DOES classify the forecast-stub
entry as a failure — the claim that only a truthy boolean `error` field
triggers classification is false on the code, which tests Python
truthiness (`value.get("error")`), and the non-empty string
`Forecast not implemented` is truthy. -/
theorem C3_counterexample :
    (basic_validation forecastReport).status = "partial" ∧
    (basic_validation forecastReport).errors =
      ["weather_get_forecast: Unknown error"] := by
  decide

/-- C3 (amended): a result entry that is a mapping whose `error` field is
truthy under Python truthiness — boolean `true` or any non-empty string
such as `Forecast not implemented` — IS classified as a failure by basic
validation: the verdict status is not `success` and an error string is
recorded. -/
theorem C3_amended_truthy_error (r : Report) (k : String)
    (fs : List (String × Json)) (hmem : (k, Json.obj fs) ∈ r.results)
    (htr : truthy (dget fs "error") = true) :
    (basic_validation r).status ≠ "success" ∧
      (basic_validation r).errors ≠ [] := by
  obtain ⟨l1, l2, hsplit⟩ := List.append_of_mem hmem
  unfold basic_validation
  rw [hsplit, List.foldl_append, List.foldl_cons]
  exact foldl_basicCheck_off l2 _ (basicCheckEntry_trigger _ k fs htr).1
    (basicCheckEntry_trigger _ k fs htr).2

theorem C3_witness :
    (basic_validation forecastReport).status ≠ "success" ∧
      (basic_validation forecastReport).errors ≠ [] :=
  C3_amended_truthy_error forecastReport "weather_get_forecast"
    [("city", .str "Paris"), ("forecast", .arr []),
     ("error", .str "Forecast not implemented")]
    (List.mem_singleton.mpr rfl) (by decide)

/-- C4 counterexample: on the empty-plan report basic validation is
`failed`, so `verify_and_format` escalates to the LLM; if the LLM
verification succeeds and answers `status: success`, that status — not
`failed` — is returned, refuting the unconditional claim. -/
theorem C4_counterexample :
    execute_plan (fun _ _ _ => .value .null) [] = ⟨0, 0, []⟩ ∧
    jsonStrVal (getField (verify_and_format ⟨0, 0, []⟩
      (.ok (.obj [("status", .str "success"), ("results", .obj [])]))) "status") ≠
      some "failed" ∧
    jsonStrVal (getField (verify_and_format ⟨0, 0, []⟩
      (.ok (.obj [("status", .str "success"), ("results", .obj [])]))) "status") =
      some "success" := by
  refine ⟨rfl, by decide, rfl⟩

/-- C4 (amended): for the empty plan, `execute_plan` returns the report
`{steps_executed: 0, steps_failed: 0, results: {}}`; and
`verify_and_format` on that report yields status `failed` whenever the LLM
verification path raises (the deterministic fallback); a successful LLM
verification instead determines the status itself. -/
theorem C4_amended_empty_plan (env : Env) (llm : Except String Json)
    (e : String) :
    execute_plan env [] = ⟨0, 0, []⟩ ∧
    (llm_verification llm = .error e →
      getField (verify_and_format ⟨0, 0, []⟩ llm) "status" = .str "failed") := by
  refine ⟨rfl, fun h => ?_⟩
  rw [verify_fallback _ _ _ h, format_results_status]
  have hs : (basic_validation ⟨0, 0, []⟩).status = "failed" := by decide
  rw [hs]

theorem C4_witness :
    execute_plan (fun _ _ _ => CallResult.value .null) [] = ⟨0, 0, []⟩ ∧
    getField (verify_and_format ⟨0, 0, []⟩ (.error "x")) "status" = .str "failed" :=
  ⟨(C4_amended_empty_plan (fun _ _ _ => CallResult.value .null) (.error "x") "x").1,
   (C4_amended_empty_plan (fun _ _ _ => CallResult.value .null) (.error "x") "x").2 rfl⟩

/-- C5: a plan step referencing a tool or action absent from the registry
does not make `execute_plan` raise (the embedding is total on step dicts):
the step is recorded as the synthetic error record
`{error: true, message, step}` under `error_step_<i>`, `steps_failed` rises
by exactly 1 relative to the plan without that step, and `steps_executed`
(the siblings' outcomes) is unchanged. -/
theorem C5_unknown_step_isolated (env : Env) (pre post : List Dict) (s : Dict)
    (h : unknownStep s = true) :
    (∃ msg, Dict.lookup? (execute_plan env (pre ++ s :: post)).results
        ("error_step_" ++ natDecimal pre.length) = some (errRecord msg s)) ∧
    (execute_plan env (pre ++ s :: post)).steps_failed =
      (execute_plan env (pre ++ post)).steps_failed + 1 ∧
    (execute_plan env (pre ++ s :: post)).steps_executed =
      (execute_plan env (pre ++ post)).steps_executed := by
  obtain ⟨msg, hexn⟩ := unknownStep_exn env s h
  refine ⟨⟨msg, ?_⟩, ?_, ?_⟩
  · have hdec : execute_plan env (pre ++ s :: post) =
        execPlanAux env (pre.length + 1) post
          (execStepInPlan env (execPlanAux env 0 pre ⟨0, 0, []⟩) pre.length s) := by
      show execPlanAux env 0 (pre ++ s :: post) ⟨0, 0, []⟩ = _
      rw [execPlanAux_append]
      simp only [Nat.zero_add]
      rfl
    have hK0 : KeysOK pre.length (execPlanAux env 0 pre (⟨0, 0, []⟩ : Report)).results := by
      have := (aux_inv env pre 0 ⟨0, 0, []⟩ KeysOK_nil).1
      simpa using this
    have hfresh := errKey_fresh hK0
    have hlook1 : Dict.lookup?
        (execStepInPlan env (execPlanAux env 0 pre ⟨0, 0, []⟩) pre.length s).results
        ("error_step_" ++ natDecimal pre.length) = some (errRecord msg s) := by
      rw [execStepInPlan_exn env _ pre.length s msg hexn]
      dsimp only
      rw [setKey_fresh _ hfresh]
      exact lookup_append_self _ hfresh
    have hK1 := (step_inv env (execPlanAux env 0 pre ⟨0, 0, []⟩) pre.length s hK0).1
    rw [hdec]
    exact (aux_inv env post (pre.length + 1) _ hK1).2 _ _ hlook1
  · have c1 := aux_counts env (pre ++ s :: post) 0 ⟨0, 0, []⟩
    have c2 := aux_counts env (pre ++ post) 0 ⟨0, 0, []⟩
    have hflt : failInc env s = 1 := by simp [failInc, hexn]
    show (execPlanAux env 0 (pre ++ s :: post) ⟨0, 0, []⟩).steps_failed =
      (execPlanAux env 0 (pre ++ post) ⟨0, 0, []⟩).steps_failed + 1
    rw [c1.2, c2.2]
    simp [hflt]
    omega
  · have c1 := aux_counts env (pre ++ s :: post) 0 ⟨0, 0, []⟩
    have c2 := aux_counts env (pre ++ post) 0 ⟨0, 0, []⟩
    have hexc : execInc env s = 0 := by simp [execInc, hexn]
    show (execPlanAux env 0 (pre ++ s :: post) ⟨0, 0, []⟩).steps_executed =
      (execPlanAux env 0 (pre ++ post) ⟨0, 0, []⟩).steps_executed
    rw [c1.1, c2.1]
    simp [hexc]
    try omega

theorem C5_witness :
    (∃ msg, Dict.lookup? (execute_plan (fun _ _ _ => .value (.obj []))
        ([] ++ [("tool", Json.str "slack"), ("action", Json.str "post"),
                ("params", Json.obj [])] ::
          [[("tool", Json.str "github"), ("action", Json.str "search_repos"),
            ("params", Json.obj [])]])).results
        ("error_step_" ++ natDecimal (List.length ([] : List Dict))) =
        some (errRecord msg
          [("tool", Json.str "slack"), ("action", Json.str "post"),
           ("params", Json.obj [])])) ∧
    (execute_plan (fun _ _ _ => .value (.obj []))
        ([] ++ [("tool", Json.str "slack"), ("action", Json.str "post"),
                ("params", Json.obj [])] ::
          [[("tool", Json.str "github"), ("action", Json.str "search_repos"),
            ("params", Json.obj [])]])).steps_failed =
      (execute_plan (fun _ _ _ => .value (.obj []))
        ([] ++ [[("tool", Json.str "github"), ("action", Json.str "search_repos"),
                 ("params", Json.obj [])]])).steps_failed + 1 ∧
    (execute_plan (fun _ _ _ => .value (.obj []))
        ([] ++ [("tool", Json.str "slack"), ("action", Json.str "post"),
                ("params", Json.obj [])] ::
          [[("tool", Json.str "github"), ("action", Json.str "search_repos"),
            ("params", Json.obj [])]])).steps_executed =
      (execute_plan (fun _ _ _ => .value (.obj []))
        ([] ++ [[("tool", Json.str "github"), ("action", Json.str "search_repos"),
                 ("params", Json.obj [])]])).steps_executed :=
  C5_unknown_step_isolated (fun _ _ _ => .value (.obj [])) [] _ _ (by decide)

/-- C6: a step whose bound action raises a parameter-shape error
(`TypeError`, modelled as `CallResult.typeError`) does not propagate the
exception: `_execute_step` returns the StepOutcome
`{error: true, message: "Invalid parameters: ..."}`, and within
`execute_plan` such a step increments both `steps_executed` and
`steps_failed` by exactly 1 (intentional double counting). -/
theorem C6_param_mismatch (env : Env) (pre post : List Dict) (s : Dict)
    (t a m : String)
    (htool : dget s "tool" = .str t) (hact : dget s "action" = .str a)
    (hreg : (t, a) ∈ regPairs)
    (henv : env t a ((Dict.lookup? s "params").getD (.obj [])) = .typeError m) :
    execute_step env s = .ok (.obj [("error", .bool true),
      ("message", .str ("Invalid parameters: " ++ m))]) ∧
    (execute_plan env (pre ++ s :: post)).steps_executed =
      (execute_plan env (pre ++ post)).steps_executed + 1 ∧
    (execute_plan env (pre ++ s :: post)).steps_failed =
      (execute_plan env (pre ++ post)).steps_failed + 1 := by
  have hstep : execute_step env s = .ok (.obj [("error", .bool true),
      ("message", .str ("Invalid parameters: " ++ m))]) := by
    rcases mem_regPairs_elim hreg with h4 | h4 | h4 | h4 <;>
      (simp only [Prod.ext_iff] at h4
       obtain ⟨rfl, rfl⟩ := h4
       simp [execute_step, htool, hact, lookupActions, action_map, henv])
  refine ⟨hstep, ?_, ?_⟩
  · have c1 := aux_counts env (pre ++ s :: post) 0 ⟨0, 0, []⟩
    have c2 := aux_counts env (pre ++ post) 0 ⟨0, 0, []⟩
    have hexc : execInc env s = 1 := by simp [execInc, hstep]
    show (execPlanAux env 0 (pre ++ s :: post) ⟨0, 0, []⟩).steps_executed =
      (execPlanAux env 0 (pre ++ post) ⟨0, 0, []⟩).steps_executed + 1
    rw [c1.1, c2.1]
    simp [hexc]
    omega
  · have c1 := aux_counts env (pre ++ s :: post) 0 ⟨0, 0, []⟩
    have c2 := aux_counts env (pre ++ post) 0 ⟨0, 0, []⟩
    have hflt : failInc env s = 1 := by
      unfold failInc
      rw [hstep]
      rfl
    show (execPlanAux env 0 (pre ++ s :: post) ⟨0, 0, []⟩).steps_failed =
      (execPlanAux env 0 (pre ++ post) ⟨0, 0, []⟩).steps_failed + 1
    rw [c1.2, c2.2]
    simp [hflt]
    omega

theorem C6_witness :
    execute_step (fun _ _ _ => .typeError "unexpected keyword")
        [("tool", Json.str "weather"), ("action", Json.str "get_weather"),
         ("params", Json.obj [("town", Json.str "Paris")])] =
      .ok (.obj [("error", .bool true),
        ("message", .str ("Invalid parameters: " ++ "unexpected keyword"))]) ∧
    (execute_plan (fun _ _ _ => .typeError "unexpected keyword")
        ([] ++ [("tool", Json.str "weather"), ("action", Json.str "get_weather"),
                ("params", Json.obj [("town", Json.str "Paris")])] :: [])).steps_executed =
      (execute_plan (fun _ _ _ => .typeError "unexpected keyword")
        ([] ++ [])).steps_executed + 1 ∧
    (execute_plan (fun _ _ _ => .typeError "unexpected keyword")
        ([] ++ [("tool", Json.str "weather"), ("action", Json.str "get_weather"),
                ("params", Json.obj [("town", Json.str "Paris")])] :: [])).steps_failed =
      (execute_plan (fun _ _ _ => .typeError "unexpected keyword")
        ([] ++ [])).steps_failed + 1 :=
  C6_param_mismatch (fun _ _ _ => .typeError "unexpected keyword") [] [] _
    "weather" "get_weather" "unexpected keyword" rfl rfl (by decide) rfl

/-- C7: when two steps share the same tool and action (with no other step
carrying that pair before or between them) and both dispatch successfully,
the first outcome is keyed under the short key `<tool>_<action>` and the
second under the index-suffixed key `<tool>_<action>_<i>` — suffixing
applies only on collision, deterministically and order-dependently. -/
theorem C7_collision_keying (env : Env) (pre mid post : List Dict)
    (s1 s2 : Dict) (t a : String) (v1 v2 : Json)
    (hreg : (t, a) ∈ regPairs)
    (h1t : dget s1 "tool" = .str t) (h1a : dget s1 "action" = .str a)
    (h2t : dget s2 "tool" = .str t) (h2a : dget s2 "action" = .str a)
    (hs1 : execute_step env s1 = .ok v1) (hs2 : execute_step env s2 = .ok v2)
    (hother : ∀ s ∈ pre ++ mid,
      ¬(dget s "tool" = .str t ∧ dget s "action" = .str a)) :
    Dict.lookup? (execute_plan env (pre ++ s1 :: (mid ++ s2 :: post))).results
        (shortKey t a) = some v1 ∧
    Dict.lookup? (execute_plan env (pre ++ s1 :: (mid ++ s2 :: post))).results
        (longKey t a (pre.length + 1 + mid.length)) = some v2 := by
  have hdec : execute_plan env (pre ++ s1 :: (mid ++ s2 :: post)) =
      execPlanAux env (pre.length + 1 + mid.length + 1) post
        (execStepInPlan env
          (execPlanAux env (pre.length + 1) mid
            (execStepInPlan env (execPlanAux env 0 pre ⟨0, 0, []⟩) pre.length s1))
          (pre.length + 1 + mid.length) s2) := by
    show execPlanAux env 0 (pre ++ s1 :: (mid ++ s2 :: post)) ⟨0, 0, []⟩ = _
    rw [execPlanAux_append]
    simp only [Nat.zero_add]
    show execPlanAux env (pre.length + 1) (mid ++ s2 :: post)
      (execStepInPlan env (execPlanAux env 0 pre ⟨0, 0, []⟩) pre.length s1) = _
    rw [execPlanAux_append]
    rfl
  have hK0 : KeysOK pre.length
      (execPlanAux env 0 pre (⟨0, 0, []⟩ : Report)).results := by
    have := (aux_inv env pre 0 ⟨0, 0, []⟩ KeysOK_nil).1
    simpa using this
  have hav0 : shortKey t a ∉
      keys (execPlanAux env 0 pre (⟨0, 0, []⟩ : Report)).results := by
    refine aux_avoid env t a hreg pre 0 ⟨0, 0, []⟩ KeysOK_nil ?_ ?_
    · simp [keys]
    · intro s3 hs3
      exact hother s3 (List.mem_append_left mid hs3)
  have hlook1 : Dict.lookup?
      (execStepInPlan env (execPlanAux env 0 pre ⟨0, 0, []⟩) pre.length s1).results
      (shortKey t a) = some v1 :=
    execStepInPlan_lookup_short env _ pre.length s1 v1 t a hs1 h1t h1a hreg hK0
      (hasKey_false_iff.mpr hav0)
  have hK1 : KeysOK (pre.length + 1)
      (execStepInPlan env (execPlanAux env 0 pre ⟨0, 0, []⟩) pre.length s1).results :=
    (step_inv env _ pre.length s1 hK0).1
  have hK2 : KeysOK (pre.length + 1 + mid.length)
      (execPlanAux env (pre.length + 1) mid
        (execStepInPlan env (execPlanAux env 0 pre ⟨0, 0, []⟩) pre.length s1)).results :=
    (aux_inv env mid (pre.length + 1) _ hK1).1
  have hlook2 : Dict.lookup?
      (execPlanAux env (pre.length + 1) mid
        (execStepInPlan env (execPlanAux env 0 pre ⟨0, 0, []⟩) pre.length s1)).results
      (shortKey t a) = some v1 :=
    (aux_inv env mid (pre.length + 1) _ hK1).2 _ _ hlook1
  have hck2 : hasKey
      (execPlanAux env (pre.length + 1) mid
        (execStepInPlan env (execPlanAux env 0 pre ⟨0, 0, []⟩) pre.length s1)).results
      (shortKey t a) = true :=
    hasKey_iff.mpr (lookup_mem hlook2)
  have hlook3b : Dict.lookup?
      (execStepInPlan env
        (execPlanAux env (pre.length + 1) mid
          (execStepInPlan env (execPlanAux env 0 pre ⟨0, 0, []⟩) pre.length s1))
        (pre.length + 1 + mid.length) s2).results
      (longKey t a (pre.length + 1 + mid.length)) = some v2 :=
    execStepInPlan_lookup_long env _ _ s2 v2 t a hs2 h2t h2a hreg hK2 hck2
  have hlook3a : Dict.lookup?
      (execStepInPlan env
        (execPlanAux env (pre.length + 1) mid
          (execStepInPlan env (execPlanAux env 0 pre ⟨0, 0, []⟩) pre.length s1))
        (pre.length + 1 + mid.length) s2).results
      (shortKey t a) = some v1 :=
    (step_inv env _ (pre.length + 1 + mid.length) s2 hK2).2 _ _ hlook2
  have hK3 : KeysOK (pre.length + 1 + mid.length + 1)
      (execStepInPlan env
        (execPlanAux env (pre.length + 1) mid
          (execStepInPlan env (execPlanAux env 0 pre ⟨0, 0, []⟩) pre.length s1))
        (pre.length + 1 + mid.length) s2).results :=
    (step_inv env _ (pre.length + 1 + mid.length) s2 hK2).1
  rw [hdec]
  exact ⟨(aux_inv env post (pre.length + 1 + mid.length + 1) _ hK3).2 _ _ hlook3a,
    (aux_inv env post (pre.length + 1 + mid.length + 1) _ hK3).2 _ _ hlook3b⟩

theorem C7_witness :
    Dict.lookup? (execute_plan (fun _ _ _ => .value (.obj [("ok", Json.bool true)]))
        ([] ++ [("tool", Json.str "github"), ("action", Json.str "search_repos"),
                ("params", Json.obj [])] ::
          ([] ++ [("tool", Json.str "github"), ("action", Json.str "search_repos"),
                  ("params", Json.obj [])] :: []))).results
        (shortKey "github" "search_repos") = some (.obj [("ok", Json.bool true)]) ∧
    Dict.lookup? (execute_plan (fun _ _ _ => .value (.obj [("ok", Json.bool true)]))
        ([] ++ [("tool", Json.str "github"), ("action", Json.str "search_repos"),
                ("params", Json.obj [])] ::
          ([] ++ [("tool", Json.str "github"), ("action", Json.str "search_repos"),
                  ("params", Json.obj [])] :: []))).results
        (longKey "github" "search_repos" 1) = some (.obj [("ok", Json.bool true)]) :=
  C7_collision_keying (fun _ _ _ => .value (.obj [("ok", Json.bool true)])) [] [] []
    _ _ "github" "search_repos" _ _ (by decide) rfl rfl rfl rfl rfl rfl
    (fun s hs => absurd hs (by simp))

/-- C8: on a report whose basic validation is `success` (and whose keys do
not mix the `github` and `weather` substrings in one key, as executor keys
never do), `verify_and_format` returns the deterministic formatter output
for every LLM oracle — no LLM call on the happy path — and the `results`
field groups entries by key substring: the `github` entries accumulate
into `github_repos` (lists flattened, dicts appended; key omitted when the
accumulation is empty), and among `weather` entries the last dict-valued
one becomes `results.weather` (omitted when empty). -/
theorem C8_success_path (r : Report) (llm : Except String Json)
    (hst : (basic_validation r).status = "success")
    (hsep : ∀ kv ∈ r.results, strContains kv.1 "weather" = true →
      strContains kv.1 "github" = false) :
    verify_and_format r llm = format_results r (basic_validation r) ∧
    getField (verify_and_format r llm) "results" =
      .obj ((match r.results.foldl gAccStep [] with
             | [] => []
             | xs => [("github_repos", .arr xs)]) ++
            (match r.results.foldl wSpecStep [] with
             | [] => []
             | fs => [("weather", .obj fs)])) := by
  have h1 := verify_success r llm hst
  refine ⟨h1, ?_⟩
  rw [h1, format_results_results, wAcc_eq_spec r.results hsep]

/-- A `success` report carrying three github repo mappings. -/
def githubReport : Report :=
  ⟨1, 0, [("github_search_repos",
    .arr [.obj [("name", .str "r1")], .obj [("name", .str "r2")],
          .obj [("name", .str "r3")]])]⟩

theorem C8_witness :
    (basic_validation githubReport).status = "success" ∧
    (∀ kv ∈ githubReport.results, strContains kv.1 "weather" = true →
      strContains kv.1 "github" = false) ∧
    (verify_and_format githubReport (.error "e") =
        format_results githubReport (basic_validation githubReport) ∧
      getField (verify_and_format githubReport (.error "e")) "results" =
        .obj ((match githubReport.results.foldl gAccStep [] with
               | [] => []
               | xs => [("github_repos", .arr xs)]) ++
              (match githubReport.results.foldl wSpecStep [] with
               | [] => []
               | fs => [("weather", .obj fs)]))) :=
  ⟨by decide, by decide,
   C8_success_path githubReport (.error "e") (by decide) (by decide)⟩

/-- C9: for every plan and feedback exchange, if the LLM capability raises
or returns a corrected plan that fails structural validation (including
syntactically valid but structurally invalid JSON), `refine_plan` returns
the original plan unchanged rather than raising or returning a partially
valid plan. -/
theorem C9_refine_fallback (plan : Json) (llm : Except String Json)
    (h : ∀ p, llm = .ok p → validate_plan p = false) :
    refine_plan plan llm = plan := by
  cases llm with
  | error e => rfl
  | ok p =>
    simp [refine_plan, h p rfl]

theorem C9_witness :
    validate_plan (.obj [("steps", .arr [])]) = true ∧
    refine_plan (.obj [("steps", .arr [])]) (.ok (.obj [("steps", .num 3)])) =
      .obj [("steps", .arr [])] :=
  ⟨by decide,
   C9_refine_fallback (.obj [("steps", .arr [])]) (.ok (.obj [("steps", .num 3)]))
     (fun p hp => by cases hp; decide)⟩

/-- C10 (implicit): basic validation never populates `missing_fields`, and
any FinalResult produced without a successful LLM verification — the
deterministic success path or the exception-fallback path — carries
`missing_fields` equal to the empty sequence, copied verbatim by the
deterministic formatter. -/
theorem C10_missing_fields (r : Report) (llm : Except String Json) (e : String) :
    (basic_validation r).missing_fields = [] ∧
    ((basic_validation r).status = "success" ∨ llm_verification llm = .error e →
      getField (verify_and_format r llm) "missing_fields" = .arr []) := by
  refine ⟨basic_validation_mf r, fun h => ?_⟩
  have hv : verify_and_format r llm = format_results r (basic_validation r) := by
    rcases h with h | h
    · exact verify_success r llm h
    · exact verify_fallback r llm e h
  rw [hv, format_results_mf, basic_validation_mf]
  rfl

theorem C10_witness :
    (basic_validation ⟨0, 0, []⟩).missing_fields = [] ∧
    getField (verify_and_format ⟨0, 0, []⟩ (.error "x")) "missing_fields" = .arr [] :=
  ⟨(C10_missing_fields ⟨0, 0, []⟩ (.error "x") "x").1,
   (C10_missing_fields ⟨0, 0, []⟩ (.error "x") "x").2 (Or.inr rfl)⟩
